import Mathlib

/-!
Shallow embedding of the TIFF decoder of `src/tiff/tiff.go` (package `tiff`
of xor-gate/goexif).  The byte source (`ReadAtReaderSeeker`) is modelled as a
list of bytes together with an explicit read position; `binary.Read` /
`io.ReadFull` are modelled by `readBytes` (distinguishing `io.EOF` from
`io.ErrUnexpectedEOF` exactly as the Go standard library does), and `Seek`
by `seek`.  The IFD-chain loop of `Decode` is modelled with explicit fuel:
`decodeLoop fuel = none` means the loop did not finish within `fuel`
iterations.  `DecodeTag`, whose source file is not under `src/`, is modelled
from the spec and the directory decoder is parameterised over it.
-/

namespace Goexif

abbrev Byte := Fin 256

/-- The Go io errors that the tiff decoder distinguishes: `io.EOF`
(no byte available at all), `io.ErrUnexpectedEOF` (a partial read), and the
error an `io.Seeker` returns for a seek to a negative position. -/
inductive IOErr
  | eof
  | unexpectedEof
  | negativePosition
  deriving DecidableEq, Repr

/-- Embeds `TiffError` of tiff.go: a message plus an optional underlying
cause (`Err`). -/
structure TiffError where
  Message : String
  Err : Option IOErr
  deriving DecidableEq, Repr

inductive ByteOrder
  | littleEndian
  | bigEndian
  deriving DecidableEq, Repr

/-- Big-endian value of a byte list (most significant byte first). -/
def beVal (bs : List Byte) : Nat :=
  bs.foldl (fun a b => a * 256 + b.val) 0

/-- Value of a byte list under a byte order, as `encoding/binary` reads it. -/
def ordVal : ByteOrder → List Byte → Nat
  | .littleEndian, bs => beVal bs.reverse
  | .bigEndian, bs => beVal bs

/-- Two's-complement reading of a `w`-bit unsigned value, as Go does when a
fixed-width unsigned bit pattern is stored into a signed integer type. -/
def toSigned (w : Nat) (v : Nat) : Int :=
  if v < 2 ^ (w - 1) then (v : Int) else (v : Int) - 2 ^ w

/-- Reads `n` bytes at position `pos`, as `io.ReadFull` does: `io.EOF` when
no byte is available, `io.ErrUnexpectedEOF` when only some are. -/
def readBytes (data : List Byte) (pos n : Nat) : Except IOErr (List Byte) :=
  if data.length ≤ pos then .error .eof
  else if data.length < pos + n then .error .unexpectedEof
  else .ok ((data.drop pos).take n)

/-- Reads an `n`-byte unsigned value at `pos`, returning the value and the
advanced position. -/
def readUnsigned (data : List Byte) (pos n : Nat) (order : ByteOrder) :
    Except IOErr (Nat × Nat) :=
  match readBytes data pos n with
  | .error e => .error e
  | .ok bs => .ok (ordVal order bs, pos + n)

/-- Reads an `n`-byte signed (two's-complement) value at `pos`, returning the
value and the advanced position; models `binary.Read` into intN. -/
def readSigned (data : List Byte) (pos n : Nat) (order : ByteOrder) :
    Except IOErr (Int × Nat) :=
  match readBytes data pos n with
  | .error e => .error e
  | .ok bs => .ok (toSigned (8 * n) (ordVal order bs), pos + n)

/-- Embeds `readOffset` of tiff.go: an 8-byte int64 in the big variant,
otherwise a 4-byte int32 sign-extended to int64. -/
def readOffset (data : List Byte) (pos : Nat) (order : ByteOrder)
    (isBigTIFF : Bool) : Except IOErr (Int × Nat) :=
  if isBigTIFF then readSigned data pos 8 order
  else readSigned data pos 4 order

/-- Embeds `Seek(offset, 0)`: an absolute seek, failing on a negative target
position (the `io.Seeker` contract) and succeeding even past end-of-file. -/
def seek (offset : Int) : Except IOErr Nat :=
  if offset < 0 then .error .negativePosition else .ok offset.toNat

/-- Embeds `Tag` of the goexif tag model: numeric id, type code, value count
and the raw value bytes. -/
structure Tag where
  id : Nat
  typ : Nat
  count : Nat
  val : List Byte
  deriving DecidableEq, Repr

/-- Embeds `Dir` of tiff.go. -/
structure Dir where
  Tags : List Tag
  deriving DecidableEq, Repr

/-- Embeds `Tiff` of tiff.go. -/
structure Tiff where
  Dirs : List Dir
  Order : ByteOrder
  IsBig : Bool
  deriving DecidableEq, Repr

/-- Outcome of one call to the tag decoder: a decoded tag (with the advanced
stream position), the `errUnhandledTagType` sentinel (the stream still
advanced, per the spec), or a hard failure. -/
inductive TagResult
  | ok (t : Tag) (pos : Nat)
  | unhandled (pos : Nat)
  | fail (e : TiffError)
  deriving DecidableEq, Repr

/-- The shape of a tag decoder: byte source, byte order, variant flag and
stream position in, `TagResult` out. -/
def TagDecoder : Type :=
  List Byte → ByteOrder → Bool → Nat → TagResult

/-- Modelled from the spec: the byte width of each recognized TIFF type code
(byte, ASCII, short, long, rational and the signed variants); codes outside
the enumeration map to the "unhandled" sentinel. -/
def typeSize : Nat → Option Nat
  | 1 => some 1
  | 2 => some 1
  | 3 => some 2
  | 4 => some 4
  | 5 => some 8
  | 6 => some 1
  | 7 => some 1
  | 8 => some 2
  | 9 => some 4
  | 10 => some 8
  | _ => none

/-- Modelled from the spec: `DecodeTag`, whose source file is not under
`src/` (only `DecodeDir` calls it).  Reads the numeric id, the type code and
the value count; computes the value length from the type code's byte width;
reads the value from the fixed-size inline slot when it fits, otherwise
treats the slot as an absolute offset and fetches the value bytes from that
location; returns the distinct "unhandled type" result for a type code
outside the recognized enumeration, and wraps all other I/O failures as
hard failures. -/
def DecodeTag : TagDecoder := fun data order isBig pos =>
  match readUnsigned data pos 2 order with
  | .error e => .fail ⟨"failed to read tag id", some e⟩
  | .ok (tagId, pos1) =>
    match readUnsigned data pos1 2 order with
    | .error e => .fail ⟨"failed to read tag type", some e⟩
    | .ok (tagTyp, pos2) =>
      match readUnsigned data pos2 (if isBig then 8 else 4) order with
      | .error e => .fail ⟨"failed to read tag count", some e⟩
      | .ok (cnt, pos3) =>
        match typeSize tagTyp with
        | none => .unhandled pos3
        | some sz =>
          let slot : Nat := if isBig then 8 else 4
          let valLen : Nat := sz * cnt
          match readBytes data pos3 slot with
          | .error e => .fail ⟨"failed to read tag value", some e⟩
          | .ok slotBytes =>
            if valLen ≤ slot then
              .ok ⟨tagId, tagTyp, cnt, slotBytes.take valLen⟩ (pos3 + slot)
            else
              let off := ordVal order slotBytes
              if data.length < off + valLen then
                .fail ⟨"failed to read tag value", some .eof⟩
              else
                .ok ⟨tagId, tagTyp, cnt, (data.drop off).take valLen⟩
                  (pos3 + slot)

/-- Embeds the tag loop of `DecodeDir` (`for n := 0; n < int(nTags); n++`):
skips tags reported as unhandled, propagates any other tag-decoder failure,
and collects the decoded tags in on-disk order. -/
def tagLoop (dt : TagDecoder) (data : List Byte) (order : ByteOrder)
    (isBig : Bool) : Nat → Nat → Except TiffError (List Tag × Nat)
  | 0, pos => .ok ([], pos)
  | n + 1, pos =>
    match dt data order isBig pos with
    | .unhandled pos1 => tagLoop dt data order isBig n pos1
    | .fail e => .error e
    | .ok t pos1 =>
      match tagLoop dt data order isBig n pos1 with
      | .error e => .error e
      | .ok (ts, pos2) => .ok (t :: ts, pos2)

/-- Embeds `DecodeDir` of tiff.go: reads the tag count (a signed 16-bit
integer in the classic variant, a signed 64-bit integer in the big variant),
runs the tag loop, then reads the offset to the next IFD.  `Int.toNat`
models Go's `n < int(nTags)` loop bound, which runs zero iterations for a
negative count. -/
def DecodeDir (dt : TagDecoder) (data : List Byte) (order : ByteOrder)
    (isBig : Bool) (pos : Nat) : Except TiffError (Dir × Int × Nat) :=
  match (if isBig then readSigned data pos 8 order
         else readSigned data pos 2 order) with
  | .error e => .error ⟨"failed to read IFD tag count", some e⟩
  | .ok (nTags, pos1) =>
    match tagLoop dt data order isBig nTags.toNat pos1 with
    | .error e => .error e
    | .ok (ts, pos2) =>
      match readOffset data pos2 order isBig with
      | .error e => .error ⟨"failed to read offset to next IFD", some e⟩
      | .ok (off, pos3) => .ok (⟨ts⟩, off, pos3)

/-- Embeds the header part of `Decode` of tiff.go: the 2-byte order magic
("II" or "MM"), the 2-byte variant marker (42 classic / 43 big), and in the
big variant the seek to position 8; returns the order, the variant flag and
the position at which the first-IFD offset is read. -/
def decodeHeader (data : List Byte) : Except TiffError (ByteOrder × Bool × Nat) :=
  match readBytes data 0 2 with
  | .error e => .error ⟨"could not read tiff byte order", some e⟩
  | .ok bo =>
    if bo = [73, 73] ∨ bo = [77, 77] then
      let order : ByteOrder := if bo = [73, 73] then .littleEndian else .bigEndian
      match readSigned data 2 2 order with
      | .error e => .error ⟨"could not find special tiff marker", some e⟩
      | .ok (sp, pos) =>
        if sp ≠ 42 ∧ sp ≠ 43 then
          .error ⟨"could not find special tiff marker", none⟩
        else if sp = 43 then
          match seek 8 with
          | .error e => .error ⟨"could not seek to first IFD", some e⟩
          | .ok p => .ok (order, true, p)
        else .ok (order, false, pos)
    else .error ⟨"could not read tiff byte order", none⟩

/-- Embeds the IFD-chain loop of `Decode` (tiff.go lines 98–123) with
explicit fuel: one unit of fuel per loop iteration, `none` meaning the loop
did not finish within the given fuel.  The loop state is the current
`offset` and `prev`; `Decode` enters with `prev = offset` and each iteration
sets `prev` to the offset it just consumed before continuing, exactly as the
Go code does.  A `DecodeDir` failure whose underlying cause is `io.EOF` ends
the walk silently (Go's `continue` with the zero offset `DecodeDir` returned
on failure); the result list pairs each successfully visited IFD offset with
its decoded directory. -/
def decodeLoop (dt : TagDecoder) (data : List Byte) (order : ByteOrder)
    (isBig : Bool) : Nat → Int → Int → Option (Except TiffError (List (Int × Dir)))
  | 0, offset, _ => if offset = 0 then some (.ok []) else none
  | fuel + 1, offset, prev =>
    if offset = 0 then some (.ok []) else
    match seek offset with
    | .error e => some (.error ⟨"seek to IFD failed", some e⟩)
    | .ok pos =>
      match DecodeDir dt data order isBig pos with
      | .error e =>
        if e.Err = some IOErr.eof then some (.ok []) else some (.error e)
      | .ok (d, next, _) =>
        if next = prev then some (.error ⟨"recursive IFD", none⟩)
        else
          (decodeLoop dt data order isBig fuel next next).map
            (fun r => r.map (fun ps => (offset, d) :: ps))

/-- Embeds `Decode` of tiff.go, parameterised over the tag decoder and the
loop fuel: parses the header, reads the first-IFD offset, then walks the
IFD chain. -/
def decodeFuel (dt : TagDecoder) (fuel : Nat) (data : List Byte) :
    Option (Except TiffError Tiff) :=
  match decodeHeader data with
  | .error e => some (.error e)
  | .ok (order, isBig, pos) =>
    match readOffset data pos order isBig with
    | .error e => some (.error ⟨"could not read offset to first IFD", some e⟩)
    | .ok (offset, _) =>
      (decodeLoop dt data order isBig fuel offset offset).map
        (fun r => r.map (fun ps => ⟨ps.map Prod.snd, order, isBig⟩))

/-- `Decode` of tiff.go: `decodeFuel` instantiated with the tag decoder. -/
def Decode (fuel : Nat) (data : List Byte) : Option (Except TiffError Tiff) :=
  decodeFuel DecodeTag fuel data

/-- A minimal classic little-endian TIFF: magic "II", marker 42, first-IFD
offset 8, and at 8 one IFD with tag count 0 and next-IFD offset 0. -/
def minimalBytes : List Byte := [73, 73, 42, 0, 8, 0, 0, 0, 0, 0, 0, 0, 0, 0]

/-- A classic TIFF whose sole IFD (at offset 8) has next-IFD offset 8: a
direct self-loop. -/
def selfLoopBytes : List Byte := [73, 73, 42, 0, 8, 0, 0, 0, 0, 0, 8, 0, 0, 0]

/-- A classic TIFF with two empty IFDs pointing at each other: the IFD at 8
has next-offset 14 and the IFD at 14 has next-offset 8. -/
def cycleBytes : List Byte :=
  [73, 73, 42, 0, 8, 0, 0, 0, 0, 0, 14, 0, 0, 0, 0, 0, 8, 0, 0, 0]

/-- A classic TIFF whose first-IFD offset (100) points past end-of-file. -/
def dangleBytes : List Byte := [73, 73, 42, 0, 100, 0, 0, 0]

/-- A classic TIFF with one well-formed empty IFD at 8 whose next-IFD offset
(100) points past end-of-file. -/
def dangleAfterOneBytes : List Byte :=
  [73, 73, 42, 0, 8, 0, 0, 0, 0, 0, 100, 0, 0, 0]

/-- A classic TIFF whose header's first-IFD offset is zero. -/
def zeroOffsetBytes : List Byte := [73, 73, 42, 0, 0, 0, 0, 0]

/-- Six bytes forming, when read at position 0 in little-endian classic
mode, an IFD tag count of 0x8000 (sign bit set) followed by a 4-byte
next-IFD offset of 5. -/
def negCountBytes : List Byte := [0, 128, 5, 0, 0, 0]

theorem readBytes_ok_length {data : List Byte} {pos n : Nat} {bs : List Byte}
    (h : readBytes data pos n = .ok bs) : bs.length = n := by
  unfold readBytes at h
  split at h
  · exact absurd h (by simp)
  · split at h
    · exact absurd h (by simp)
    · rename_i h1 h2
      simp only [Except.ok.injEq] at h
      subst h
      simp [List.length_take, List.length_drop]
      omega

theorem beVal_foldl_lt (bs : List Byte) :
    ∀ a : Nat, bs.foldl (fun a b => a * 256 + b.val) a < (a + 1) * 256 ^ bs.length := by
  induction bs with
  | nil => intro a; simp
  | cons b bs ih =>
    intro a
    simp only [List.foldl_cons, List.length_cons]
    calc (bs.foldl (fun a b => a * 256 + b.val) (a * 256 + b.val))
        < (a * 256 + b.val + 1) * 256 ^ bs.length := ih _
      _ ≤ (a + 1) * 256 ^ (bs.length + 1) := by
          have hb : b.val + 1 ≤ 256 := b.isLt
          have : a * 256 + b.val + 1 ≤ (a + 1) * 256 := by nlinarith
          calc (a * 256 + b.val + 1) * 256 ^ bs.length
              ≤ ((a + 1) * 256) * 256 ^ bs.length :=
                Nat.mul_le_mul_right _ this
            _ = (a + 1) * 256 ^ (bs.length + 1) := by ring

theorem ordVal_lt (order : ByteOrder) (bs : List Byte) :
    ordVal order bs < 256 ^ bs.length := by
  cases order with
  | littleEndian =>
    have h := beVal_foldl_lt bs.reverse 0
    simpa [ordVal, beVal] using h
  | bigEndian =>
    have h := beVal_foldl_lt bs 0
    simpa [ordVal, beVal] using h

theorem toSigned_neg_of_high {w : Nat} {v : Nat}
    (hlo : 2 ^ (w - 1) ≤ v) (hhi : v < 2 ^ w) : toSigned w v < 0 := by
  unfold toSigned
  rw [if_neg (by omega)]
  have : (v : Int) < 2 ^ w := by exact_mod_cast hhi
  omega

/-- C6: decoding the synthetic minimal TIFF (endianness magic, variant
marker, one offset pointing to a single IFD with tag count zero and a
terminating zero next-IFD offset) yields a `Tiff` with exactly one
`Dir` containing zero `Tag`s, and no error. -/
theorem decode_minimal_tiff :
    Decode 1 minimalBytes =
      some (.ok ⟨[⟨[]⟩], .littleEndian, false⟩) := by rfl

/-- C4: whenever the IFD at a nonzero offset `o` (with `prev = o`, the
invariant `Decode` maintains at every loop head) decodes to a next-offset
equal to `o` itself, the IFD-chain loop aborts the whole decode with the
"recursive IFD" structural failure. -/
theorem decodeLoop_recursive_ifd (dt : TagDecoder) (data : List Byte)
    (order : ByteOrder) (isBig : Bool) (fuel : Nat) (o : Int) (pos pos2 : Nat)
    (d : Dir) (ho : o ≠ 0) (hseek : seek o = .ok pos)
    (hdir : DecodeDir dt data order isBig pos = .ok (d, o, pos2)) :
    decodeLoop dt data order isBig (fuel + 1) o o =
      some (.error ⟨"recursive IFD", none⟩) := by
  simp [decodeLoop, ho, hseek, hdir]

/-- Witness for C4: the crafted input whose sole IFD's next-offset equals
its own offset (8) makes the loop, and the whole decode, fail with
"recursive IFD". -/
theorem decodeLoop_recursive_ifd_witness :
    decodeLoop DecodeTag selfLoopBytes .littleEndian false 1 8 8 =
        some (.error ⟨"recursive IFD", none⟩) ∧
    Decode 1 selfLoopBytes = some (.error ⟨"recursive IFD", none⟩) :=
  ⟨decodeLoop_recursive_ifd DecodeTag selfLoopBytes .littleEndian false 0 8 8 14
      ⟨[]⟩ (by decide) rfl rfl,
    rfl⟩

/-- C8: when the header parses and the first-IFD offset reads as zero, the
decode succeeds with an empty `Dirs` sequence, for every fuel. -/
theorem decode_zero_first_offset (dt : TagDecoder) (data : List Byte)
    (order : ByteOrder) (isBig : Bool) (pos pos2 : Nat) (fuel : Nat)
    (hh : decodeHeader data = .ok (order, isBig, pos))
    (ho : readOffset data pos order isBig = .ok (0, pos2)) :
    decodeFuel dt fuel data = some (.ok ⟨[], order, isBig⟩) := by
  cases fuel <;> simp [decodeFuel, hh, ho, decodeLoop, Except.map]

/-- Witness for C8: a valid classic header whose first-IFD offset field is
zero decodes to a `Tiff` with no directories and no error. -/
theorem decode_zero_first_offset_witness :
    decodeFuel DecodeTag 3 zeroOffsetBytes =
      some (.ok ⟨[], .littleEndian, false⟩) :=
  decode_zero_first_offset DecodeTag zeroOffsetBytes .littleEndian false 4 8 3
    rfl rfl

/-- C3: whenever `DecodeDir` fails at the current chain link with a
`TiffError` whose underlying cause is end-of-input (`io.EOF`), the IFD-chain
loop silently drops that IFD and finishes without an error — the failure is
never returned to the caller. -/
theorem decodeLoop_eof_skip (dt : TagDecoder) (data : List Byte)
    (order : ByteOrder) (isBig : Bool) (fuel : Nat) (o prev : Int) (pos : Nat)
    (e : TiffError) (ho : o ≠ 0) (hseek : seek o = .ok pos)
    (hdir : DecodeDir dt data order isBig pos = .error e)
    (heof : e.Err = some .eof) :
    decodeLoop dt data order isBig (fuel + 1) o prev = some (.ok []) := by
  simp [decodeLoop, ho, hseek, hdir, heof]

/-- Witness for C3: a first-IFD offset of 100 in an 8-byte file makes
`DecodeDir` fail with an end-of-input cause, and the decode still returns a
`Tiff` (with no directories) and no error. -/
theorem decodeLoop_eof_skip_witness :
    DecodeDir DecodeTag dangleBytes .littleEndian false 100 =
        .error ⟨"failed to read IFD tag count", some .eof⟩ ∧
    decodeLoop DecodeTag dangleBytes .littleEndian false 1 100 100 =
        some (.ok []) ∧
    Decode 1 dangleBytes = some (.ok ⟨[], .littleEndian, false⟩) :=
  ⟨rfl,
    decodeLoop_eof_skip DecodeTag dangleBytes .littleEndian false 0 100 100 100
      ⟨"failed to read IFD tag count", some .eof⟩ (by decide) rfl rfl rfl,
    rfl⟩

/-- C9: in the classic variant the IFD tag count is read as a signed 16-bit
integer, so a 2-byte field with its high bit set reads as a negative count;
the tag loop then runs zero times and `DecodeDir` returns a directory with
no tags together with the next-IFD offset read right after the count. -/
theorem decodeDir_negative_count :
    (∀ (order : ByteOrder) (bs : List Byte), bs.length = 2 →
      2 ^ 15 ≤ ordVal order bs → toSigned 16 (ordVal order bs) < 0) ∧
    (∀ (dt : TagDecoder) (data : List Byte) (order : ByteOrder)
      (pos : Nat) (cnt : Int) (pos1 : Nat),
      readSigned data pos 2 order = .ok (cnt, pos1) → cnt < 0 →
      DecodeDir dt data order false pos =
        match readOffset data pos1 order false with
        | .error e => .error ⟨"failed to read offset to next IFD", some e⟩
        | .ok (off, pos2) => .ok (⟨[]⟩, off, pos2)) := by
  constructor
  · intro order bs hlen hhi
    have hlt : ordVal order bs < 256 ^ bs.length := ordVal_lt order bs
    rw [hlen] at hlt
    exact toSigned_neg_of_high hhi (by norm_num at hlt ⊢; omega)
  · intro dt data order pos cnt pos1 hcnt hneg
    have hz : cnt.toNat = 0 := Int.toNat_of_nonpos (le_of_lt hneg)
    unfold DecodeDir
    simp only [Bool.false_eq_true, if_false, hcnt, hz]
    simp [tagLoop]

/-- Witness for C9: the little-endian count field `[0x00, 0x80]` reads as
the negative count -32768, and `DecodeDir` on it returns an empty directory
and the following offset 5. -/
theorem decodeDir_negative_count_witness :
    toSigned 16 (ordVal .littleEndian [0, 128]) < 0 ∧
    DecodeDir DecodeTag negCountBytes .littleEndian false 0 =
      .ok (⟨[]⟩, 5, 6) := by
  refine ⟨decodeDir_negative_count.1 .littleEndian [0, 128] rfl (by decide), ?_⟩
  have h := decodeDir_negative_count.2 DecodeTag negCountBytes .littleEndian 0
    (-32768) 2 (by rfl) (by decide)
  simpa using h

/-- C10: in the classic variant `readOffset` reads the 4-byte field as a
signed 32-bit integer sign-extended to 64 bits, so a field encoding a value
of 2^31 or more yields a negative offset; and the IFD-chain loop, on any
negative offset, fails hard with "seek to IFD failed" instead of addressing
such a position. -/
theorem readOffset_high_bit_negative_seek_fails :
    (∀ (data : List Byte) (pos : Nat) (order : ByteOrder) (bs : List Byte),
      readBytes data pos 4 = .ok bs → 2 ^ 31 ≤ ordVal order bs →
      readOffset data pos order false =
          .ok (toSigned 32 (ordVal order bs), pos + 4) ∧
        toSigned 32 (ordVal order bs) < 0) ∧
    (∀ (dt : TagDecoder) (data : List Byte) (order : ByteOrder) (isBig : Bool)
      (fuel : Nat) (o prev : Int), o < 0 →
      decodeLoop dt data order isBig (fuel + 1) o prev =
        some (.error ⟨"seek to IFD failed", some .negativePosition⟩)) := by
  constructor
  · intro data pos order bs hrd hhi
    have hlen : bs.length = 4 := readBytes_ok_length hrd
    have hlt : ordVal order bs < 256 ^ bs.length := ordVal_lt order bs
    rw [hlen] at hlt
    refine ⟨?_, ?_⟩
    · unfold readOffset readSigned
      rw [hrd]
      norm_num
    · exact toSigned_neg_of_high hhi (by norm_num at hlt ⊢; omega)
  · intro dt data order isBig fuel o prev hneg
    have ho : o ≠ 0 := by omega
    have hs : seek o = .error .negativePosition := by
      unfold seek; rw [if_pos hneg]
    simp [decodeLoop, ho, hs]

/-- Witness for C10: the little-endian field `[0,0,0,0x80]` (value 2^31)
reads as offset -2^31, and the loop on a negative offset fails with
"seek to IFD failed". -/
theorem readOffset_high_bit_negative_seek_fails_witness :
    (readOffset [0, 0, 0, 128] 0 .littleEndian false =
          .ok (toSigned 32 (ordVal .littleEndian [0, 0, 0, 128]), 4) ∧
        toSigned 32 (ordVal .littleEndian [0, 0, 0, 128]) < 0) ∧
    decodeLoop DecodeTag [] .littleEndian false 1 (-2147483648) 0 =
      some (.error ⟨"seek to IFD failed", some .negativePosition⟩) :=
  ⟨readOffset_high_bit_negative_seek_fails.1 [0, 0, 0, 128] 0 .littleEndian
      [0, 0, 0, 128] rfl (by decide),
    readOffset_high_bit_negative_seek_fails.2 DecodeTag [] .littleEndian false
      0 (-2147483648) 0 (by decide)⟩

/-- Reachability relation of the IFD-chain loop: `Steps o ps q` says that
the loop starting at offset `o` successfully decodes the (offset, directory)
pairs `ps` in order and arrives at pending offset `q`, each link passing the
seek, the directory decode and the self-loop guard. -/
inductive Steps (dt : TagDecoder) (data : List Byte) (order : ByteOrder)
    (isBig : Bool) : Int → List (Int × Dir) → Int → Prop
  | refl (o : Int) : Steps dt data order isBig o [] o
  | cons (o : Int) (pos : Nat) (d : Dir) (next q : Int) (ps : List (Int × Dir))
      (pos2 : Nat) (ho : o ≠ 0) (hseek : seek o = .ok pos)
      (hdir : DecodeDir dt data order isBig pos = .ok (d, next, pos2))
      (hne : next ≠ o) (hrest : Steps dt data order isBig next ps q) :
      Steps dt data order isBig o ((o, d) :: ps) q

theorem decodeDir_eof_of_past_end (dt : TagDecoder) (data : List Byte)
    (order : ByteOrder) (isBig : Bool) (pos : Nat)
    (h : data.length ≤ pos) :
    DecodeDir dt data order isBig pos =
      .error ⟨"failed to read IFD tag count", some .eof⟩ := by
  unfold DecodeDir readSigned readBytes
  cases isBig <;> simp [h]

theorem decodeLoop_of_steps_dangling (dt : TagDecoder) (data : List Byte)
    (order : ByteOrder) (isBig : Bool) (o q : Int) (ps : List (Int × Dir))
    (hsteps : Steps dt data order isBig o ps q) :
    q ≠ 0 → 0 ≤ q → data.length ≤ q.toNat →
    ∃ fuel, decodeLoop dt data order isBig fuel o o = some (.ok ps) := by
  induction hsteps with
  | refl o =>
    intro hq0 hqpos hpast
    refine ⟨1, ?_⟩
    have hs : seek o = .ok o.toNat := by
      unfold seek; rw [if_neg (by omega)]
    simp [decodeLoop, hq0, hs, decodeDir_eof_of_past_end dt data order isBig
      o.toNat hpast]
  | cons o pos d next q ps pos2 ho hseek hdir hne hrest ih =>
    intro hq0 hqpos hpast
    obtain ⟨fuel, hloop⟩ := ih hq0 hqpos hpast
    refine ⟨fuel + 1, ?_⟩
    simp [decodeLoop, ho, hseek, hdir, hne, hloop, Except.map]

/-- C5: when the IFD-chain walk decodes the directories `ps` and arrives at
a final next-offset `q` that is nonzero and points at or past end-of-file,
the decode returns a `Tiff` holding exactly the previously decoded
directories and no error: the dangling pointer is silently dropped.  (The
"not the first IFD" proviso of the claim is the hypothesis `ps ≠ []`.) -/
theorem decode_dangling_final_ifd (dt : TagDecoder) (data : List Byte)
    (order : ByteOrder) (isBig : Bool) (o q : Int) (ps : List (Int × Dir))
    (pos0 pos1 : Nat)
    (hsteps : Steps dt data order isBig o ps q)
    (_hne : ps ≠ []) (hq0 : q ≠ 0) (hqpos : 0 ≤ q)
    (hpast : data.length ≤ q.toNat)
    (hh : decodeHeader data = .ok (order, isBig, pos0))
    (ho : readOffset data pos0 order isBig = .ok (o, pos1)) :
    ∃ fuel, decodeFuel dt fuel data =
      some (.ok ⟨ps.map Prod.snd, order, isBig⟩) := by
  obtain ⟨fuel, hloop⟩ :=
    decodeLoop_of_steps_dangling dt data order isBig o q ps hsteps hq0 hqpos
      hpast
  exact ⟨fuel, by simp [decodeFuel, hh, ho, hloop, Except.map]⟩

/-- Witness for C5: a file with one well-formed empty IFD at 8 whose
next-offset 100 points past the 14-byte end decodes to a `Tiff` holding
exactly that one directory, with no error. -/
theorem decode_dangling_final_ifd_witness :
    ∃ fuel, decodeFuel DecodeTag fuel dangleAfterOneBytes =
      some (.ok ⟨[⟨[]⟩], .littleEndian, false⟩) :=
  decode_dangling_final_ifd DecodeTag dangleAfterOneBytes .littleEndian false
    8 100 [(8, ⟨[]⟩)] 4 8
    (.cons 8 8 ⟨[]⟩ 100 100 [] 14 (by decide) rfl rfl (by decide) (.refl 100))
    (by simp) (by decide) (by decide) (by decide) rfl rfl

/-- Follows the spec's words (§4.3): the sequence of tag-decoder outcomes
produced by reading exactly `n` tag records one after the other, cut short
only by a hard tag failure. -/
def specTagResults (dt : TagDecoder) (data : List Byte) (order : ByteOrder)
    (isBig : Bool) : Nat → Nat → List TagResult
  | 0, _ => []
  | n + 1, pos =>
    match dt data order isBig pos with
    | .ok t p => .ok t p :: specTagResults dt data order isBig n p
    | .unhandled p => .unhandled p :: specTagResults dt data order isBig n p
    | .fail e => [.fail e]

/-- Follows the spec's words: the hard failure among the outcomes, if any. -/
def specHardFailure (rs : List TagResult) : Option TiffError :=
  rs.foldr (fun r acc => match r with | .fail e => some e | _ => acc) none

/-- Follows the spec's words: the successfully decoded tags, in on-disk
order, the unhandled ones skipped. -/
def specTags (rs : List TagResult) : List Tag :=
  rs.filterMap (fun r => match r with | .ok t _ => some t | _ => none)

/-- Follows the spec's words: the stream position after the tag records
(each record advances the position whether or not it was usable). -/
def specEndPos (pos : Nat) (rs : List TagResult) : Nat :=
  rs.foldl (fun p r => match r with
    | .ok _ q => q
    | .unhandled q => q
    | .fail _ => p) pos

theorem specHardFailure_cons_ok (t : Tag) (p : Nat) (rs : List TagResult) :
    specHardFailure (.ok t p :: rs) = specHardFailure rs := rfl

theorem specHardFailure_cons_unh (p : Nat) (rs : List TagResult) :
    specHardFailure (.unhandled p :: rs) = specHardFailure rs := rfl

theorem specTags_cons_ok (t : Tag) (p : Nat) (rs : List TagResult) :
    specTags (.ok t p :: rs) = t :: specTags rs := rfl

theorem specTags_cons_unh (p : Nat) (rs : List TagResult) :
    specTags (.unhandled p :: rs) = specTags rs := rfl

theorem specEndPos_cons_ok (pos : Nat) (t : Tag) (p : Nat)
    (rs : List TagResult) : specEndPos pos (.ok t p :: rs) = specEndPos p rs :=
  rfl

theorem specEndPos_cons_unh (pos p : Nat) (rs : List TagResult) :
    specEndPos pos (.unhandled p :: rs) = specEndPos p rs := rfl

/-- Follows the spec's words (§4.3 Directory Decoder): read the tag count
(2 bytes classic / 8 bytes big), read exactly that many tag records via the
tag decoder skipping unhandled ones, propagate any other tag failure as a
hard failure, then read the next-IFD offset; any I/O failure on the count or
the next-offset read is a hard failure. -/
def decodeDirSpec (dt : TagDecoder) (data : List Byte) (order : ByteOrder)
    (isBig : Bool) (pos : Nat) : Except TiffError (Dir × Int × Nat) :=
  match (if isBig then readSigned data pos 8 order
         else readSigned data pos 2 order) with
  | .error e => .error ⟨"failed to read IFD tag count", some e⟩
  | .ok (nTags, pos1) =>
    let rs := specTagResults dt data order isBig nTags.toNat pos1
    match specHardFailure rs with
    | some e => .error e
    | none =>
      match readOffset data (specEndPos pos1 rs) order isBig with
      | .error e => .error ⟨"failed to read offset to next IFD", some e⟩
      | .ok (off, pos2) => .ok (⟨specTags rs⟩, off, pos2)

theorem tagLoop_eq_spec (dt : TagDecoder) (data : List Byte)
    (order : ByteOrder) (isBig : Bool) :
    ∀ n pos : Nat,
    tagLoop dt data order isBig n pos =
      match specHardFailure (specTagResults dt data order isBig n pos) with
      | some e => .error e
      | none =>
        .ok (specTags (specTagResults dt data order isBig n pos),
          specEndPos pos (specTagResults dt data order isBig n pos)) := by
  intro n
  induction n with
  | zero =>
    intro pos
    simp [tagLoop, specTagResults, specHardFailure, specTags, specEndPos]
  | succ n ih =>
    intro pos
    cases h : dt data order isBig pos with
    | ok t p =>
      rw [show tagLoop dt data order isBig (n + 1) pos =
          (match tagLoop dt data order isBig n p with
           | .error e => .error e
           | .ok (ts, pos2) => .ok (t :: ts, pos2)) by simp [tagLoop, h]]
      rw [ih p]
      rw [show specTagResults dt data order isBig (n + 1) pos =
          .ok t p :: specTagResults dt data order isBig n p by
            simp [specTagResults, h]]
      rw [specHardFailure_cons_ok, specTags_cons_ok, specEndPos_cons_ok]
      cases hf : specHardFailure (specTagResults dt data order isBig n p) <;>
        rfl
    | unhandled p =>
      rw [show tagLoop dt data order isBig (n + 1) pos =
          tagLoop dt data order isBig n p by simp [tagLoop, h]]
      rw [ih p]
      rw [show specTagResults dt data order isBig (n + 1) pos =
          .unhandled p :: specTagResults dt data order isBig n p by
            simp [specTagResults, h]]
      rw [specHardFailure_cons_unh, specTags_cons_unh, specEndPos_cons_unh]
    | fail e =>
      rw [show tagLoop dt data order isBig (n + 1) pos =
          .error e by simp [tagLoop, h]]
      rw [show specTagResults dt data order isBig (n + 1) pos =
          [.fail e] by simp [specTagResults, h]]
      rfl

theorem specTagResults_length (dt : TagDecoder) (data : List Byte)
    (order : ByteOrder) (isBig : Bool) :
    ∀ n pos : Nat,
    specHardFailure (specTagResults dt data order isBig n pos) = none →
    (specTagResults dt data order isBig n pos).length = n := by
  intro n
  induction n with
  | zero => intro pos _; simp [specTagResults]
  | succ n ih =>
    intro pos hf
    cases h : dt data order isBig pos with
    | ok t p =>
      rw [show specTagResults dt data order isBig (n + 1) pos =
          .ok t p :: specTagResults dt data order isBig n p by
            simp [specTagResults, h]] at hf ⊢
      rw [specHardFailure_cons_ok] at hf
      simp only [List.length_cons]
      rw [ih p hf]
    | unhandled p =>
      rw [show specTagResults dt data order isBig (n + 1) pos =
          .unhandled p :: specTagResults dt data order isBig n p by
            simp [specTagResults, h]] at hf ⊢
      rw [specHardFailure_cons_unh] at hf
      simp only [List.length_cons]
      rw [ih p hf]
    | fail e =>
      rw [show specTagResults dt data order isBig (n + 1) pos =
          [.fail e] by simp [specTagResults, h]] at hf
      exact absurd hf (by simp [specHardFailure])

/-- C7: `DecodeDir` coincides with the directory-decoder algorithm stated by
the spec — tag count (2 bytes classic / 8 bytes big), then exactly that many
tag-decoder invocations with unhandled tags skipped and any other tag
failure or count/offset I/O failure returned as a hard failure, then the
next-IFD offset; and in the absence of a hard failure the invocation
sequence has exactly the count's length. -/
theorem decodeDir_eq_spec :
    (∀ (dt : TagDecoder) (data : List Byte) (order : ByteOrder)
      (isBig : Bool) (pos : Nat),
      DecodeDir dt data order isBig pos =
        decodeDirSpec dt data order isBig pos) ∧
    (∀ (dt : TagDecoder) (data : List Byte) (order : ByteOrder)
      (isBig : Bool) (n pos : Nat),
      specHardFailure (specTagResults dt data order isBig n pos) = none →
      (specTagResults dt data order isBig n pos).length = n) := by
  constructor
  · intro dt data order isBig pos
    unfold DecodeDir decodeDirSpec
    cases hc : (if isBig then readSigned data pos 8 order
                else readSigned data pos 2 order) with
    | error e => rfl
    | ok v =>
      obtain ⟨nTags, pos1⟩ := v
      dsimp only
      rw [tagLoop_eq_spec dt data order isBig nTags.toNat pos1]
      cases hf : specHardFailure
          (specTagResults dt data order isBig nTags.toNat pos1) <;> simp [hf]
  · exact specTagResults_length

/-- Witness for C7: the empty IFD of the minimal TIFF at position 8 decodes
identically under `DecodeDir` and the spec's algorithm, and a zero tag count
yields an invocation sequence of length zero. -/
theorem decodeDir_eq_spec_witness :
    DecodeDir DecodeTag minimalBytes .littleEndian false 8 =
        decodeDirSpec DecodeTag minimalBytes .littleEndian false 8 ∧
    (specTagResults DecodeTag minimalBytes .littleEndian false 0 10).length
        = 0 :=
  ⟨decodeDir_eq_spec.1 DecodeTag minimalBytes .littleEndian false 8,
    decodeDir_eq_spec.2 DecodeTag minimalBytes .littleEndian false 0 10 rfl⟩

theorem decodeLoop_zero_offset (dt : TagDecoder) (data : List Byte)
    (order : ByteOrder) (isBig : Bool) (f : Nat) (prev : Int) :
    decodeLoop dt data order isBig f 0 prev = some (.ok []) := by
  cases f <;> simp [decodeLoop]

theorem decodeLoop_succ (dt : TagDecoder) (data : List Byte)
    (order : ByteOrder) (isBig : Bool) (fuel : Nat) (offset prev : Int) :
    decodeLoop dt data order isBig (fuel + 1) offset prev =
      (if offset = 0 then some (.ok []) else
       match seek offset with
       | .error e => some (.error ⟨"seek to IFD failed", some e⟩)
       | .ok pos =>
         match DecodeDir dt data order isBig pos with
         | .error e =>
           if e.Err = some IOErr.eof then some (.ok []) else some (.error e)
         | .ok (d, next, _) =>
           if next = prev then some (.error ⟨"recursive IFD", none⟩)
           else
             (decodeLoop dt data order isBig fuel next next).map
               (fun r => r.map (fun ps => (offset, d) :: ps))) := rfl

theorem decodeLoop_det (dt : TagDecoder) (data : List Byte) (order : ByteOrder)
    (isBig : Bool) :
    ∀ (f1 f2 : Nat) (o prev : Int) (r1 r2 : Except TiffError (List (Int × Dir))),
    decodeLoop dt data order isBig f1 o prev = some r1 →
    decodeLoop dt data order isBig f2 o prev = some r2 → r1 = r2 := by
  intro f1
  induction f1 with
  | zero =>
    intro f2 o prev r1 r2 h1 h2
    by_cases ho : o = 0
    · subst ho
      rw [decodeLoop_zero_offset] at h1 h2
      simp only [Option.some.injEq] at h1 h2
      rw [← h1, ← h2]
    · simp [decodeLoop, ho] at h1
  | succ f1 ih =>
    intro f2 o prev r1 r2 h1 h2
    by_cases ho : o = 0
    · subst ho
      rw [decodeLoop_zero_offset] at h1 h2
      simp only [Option.some.injEq] at h1 h2
      rw [← h1, ← h2]
    · cases f2 with
      | zero => simp [decodeLoop, ho] at h2
      | succ f2 =>
        rw [decodeLoop_succ, if_neg ho] at h1 h2
        cases hs : seek o with
        | error e =>
          rw [hs] at h1 h2
          dsimp only at h1 h2
          simp only [Option.some.injEq] at h1 h2
          rw [← h1, ← h2]
        | ok pos =>
          rw [hs] at h1 h2
          dsimp only at h1 h2
          cases hd : DecodeDir dt data order isBig pos with
          | error e =>
            rw [hd] at h1 h2
            dsimp only at h1 h2
            by_cases he : e.Err = some IOErr.eof <;>
              simp only [he, if_true, if_false, Option.some.injEq] at h1 h2 <;>
              rw [← h1, ← h2]
          | ok v =>
            obtain ⟨d, next, p2⟩ := v
            rw [hd] at h1 h2
            dsimp only at h1 h2
            by_cases hn : next = prev
            · simp only [hn, if_true, Option.some.injEq] at h1 h2
              rw [← h1, ← h2]
            · simp only [hn, if_false] at h1 h2
              cases hw1 : decodeLoop dt data order isBig f1 next next with
              | none => rw [hw1] at h1; simp at h1
              | some s1 =>
                cases hw2 : decodeLoop dt data order isBig f2 next next with
                | none => rw [hw2] at h2; simp at h2
                | some s2 =>
                  rw [hw1] at h1
                  rw [hw2] at h2
                  simp only [Option.map_some', Option.some.injEq] at h1 h2
                  have hs12 := ih f2 next next s1 s2 hw1 hw2
                  rw [← h1, ← h2, hs12]

theorem decodeLoop_ok_cons (dt : TagDecoder) (data : List Byte)
    (order : ByteOrder) (isBig : Bool) (f : Nat) (o : Int)
    (ps : List (Int × Dir))
    (h : decodeLoop dt data order isBig f o o = some (.ok ps)) :
    ps = [] ∨ ∃ d next rest f1, ps = (o, d) :: rest ∧ next ≠ o ∧
      decodeLoop dt data order isBig f1 next next = some (.ok rest) := by
  by_cases ho : o = 0
  · subst ho
    rw [decodeLoop_zero_offset] at h
    simp only [Option.some.injEq, Except.ok.injEq] at h
    exact Or.inl h.symm
  · cases f with
    | zero => simp [decodeLoop, ho] at h
    | succ f =>
      rw [decodeLoop_succ, if_neg ho] at h
      cases hs : seek o with
      | error e => rw [hs] at h; dsimp only at h; simp at h
      | ok pos =>
        rw [hs] at h
        dsimp only at h
        cases hd : DecodeDir dt data order isBig pos with
        | error e =>
          rw [hd] at h
          dsimp only at h
          by_cases he : e.Err = some IOErr.eof
          · simp only [he, if_true, Option.some.injEq, Except.ok.injEq] at h
            exact Or.inl h.symm
          · simp [he] at h
        | ok v =>
          obtain ⟨d, next, p2⟩ := v
          rw [hd] at h
          dsimp only at h
          by_cases hn : next = o
          · simp [hn] at h
          · simp only [hn, if_false] at h
            cases hw : decodeLoop dt data order isBig f next next with
            | none => rw [hw] at h; simp at h
            | some s =>
              rw [hw] at h
              simp only [Option.map_some', Option.some.injEq] at h
              cases s with
              | error e => simp [Except.map] at h
              | ok rest =>
                simp only [Except.map, Except.ok.injEq] at h
                exact Or.inr ⟨d, next, rest, f, h.symm, hn, hw⟩

theorem decodeLoop_ok_suffix (dt : TagDecoder) (data : List Byte)
    (order : ByteOrder) (isBig : Bool) :
    ∀ (i : Nat) (ps : List (Int × Dir)) (f : Nat) (o : Int)
    (_h : decodeLoop dt data order isBig f o o = some (.ok ps))
    (hi : i < ps.length),
    ∃ f1, decodeLoop dt data order isBig f1 (ps.get ⟨i, hi⟩).1
      (ps.get ⟨i, hi⟩).1 = some (.ok (ps.drop i)) := by
  intro i
  induction i with
  | zero =>
    intro ps f o h hi
    rcases decodeLoop_ok_cons dt data order isBig f o ps h with hnil | hcons
    · subst hnil; simp at hi
    · obtain ⟨d, next, rest, f1, hps, hne, hrest⟩ := hcons
      subst hps
      exact ⟨f, h⟩
  | succ i ih =>
    intro ps f o h hi
    rcases decodeLoop_ok_cons dt data order isBig f o ps h with hnil | hcons
    · subst hnil; simp at hi
    · obtain ⟨d, next, rest, f1, hps, hne, hrest⟩ := hcons
      subst hps
      have hi2 : i < rest.length := by
        simpa [Nat.succ_lt_succ_iff] using hi
      obtain ⟨f2, hf2⟩ := ih rest f1 next hrest hi2
      exact ⟨f2, hf2⟩

theorem decodeLoop_ok_nodup (dt : TagDecoder) (data : List Byte)
    (order : ByteOrder) (isBig : Bool) (f : Nat) (o : Int)
    (ps : List (Int × Dir))
    (h : decodeLoop dt data order isBig f o o = some (.ok ps)) :
    (ps.map Prod.fst).Nodup := by
  rw [List.nodup_iff_injective_getElem]
  intro a b hab
  obtain ⟨i, hia⟩ := a
  obtain ⟨j, hjb⟩ := b
  have hi : i < ps.length := by simpa using hia
  have hj : j < ps.length := by simpa using hjb
  simp only [List.getElem_map] at hab
  obtain ⟨fi, hfi⟩ := decodeLoop_ok_suffix dt data order isBig i ps f o h hi
  obtain ⟨fj, hfj⟩ := decodeLoop_ok_suffix dt data order isBig j ps f o h hj
  rw [show (ps.get ⟨i, hi⟩).1 = ps[i].1 from rfl] at hfi
  rw [show (ps.get ⟨j, hj⟩).1 = ps[j].1 from rfl] at hfj
  rw [hab] at hfi
  have hdrop := decodeLoop_det dt data order isBig fi fj ps[j].1 ps[j].1
    (.ok (ps.drop i)) (.ok (ps.drop j)) hfi hfj
  simp only [Except.ok.injEq] at hdrop
  have hlen : (ps.drop i).length = (ps.drop j).length := by rw [hdrop]
  simp only [List.length_drop] at hlen
  exact Fin.ext (show i = j by omega)

/-- C2: whenever the decode returns a `Tiff` with no error, the IFD-chain
walk that produced it visited a list of (offset, directory) pairs whose
offsets contain no repeat, the `Dirs` sequence is exactly those directories
in visit order, and its length equals the number of distinct offsets
successfully visited. -/
theorem decode_dirs_distinct_offsets (dt : TagDecoder) (data : List Byte)
    (fuel : Nat) (t : Tiff)
    (h : decodeFuel dt fuel data = some (.ok t)) :
    ∃ (pos0 pos1 : Nat) (o : Int) (ps : List (Int × Dir)),
      decodeHeader data = .ok (t.Order, t.IsBig, pos0) ∧
      readOffset data pos0 t.Order t.IsBig = .ok (o, pos1) ∧
      decodeLoop dt data t.Order t.IsBig fuel o o = some (.ok ps) ∧
      t.Dirs = ps.map Prod.snd ∧
      (ps.map Prod.fst).Nodup ∧
      t.Dirs.length = (ps.map Prod.fst).toFinset.card := by
  unfold decodeFuel at h
  cases hh : decodeHeader data with
  | error e => rw [hh] at h; dsimp only at h; simp at h
  | ok v =>
    obtain ⟨order, isBig, pos0⟩ := v
    rw [hh] at h
    dsimp only at h
    cases hro : readOffset data pos0 order isBig with
    | error e => rw [hro] at h; dsimp only at h; simp at h
    | ok w =>
      obtain ⟨o, pos1⟩ := w
      rw [hro] at h
      dsimp only at h
      cases hw : decodeLoop dt data order isBig fuel o o with
      | none => rw [hw] at h; simp at h
      | some r =>
        rw [hw] at h
        simp only [Option.map_some', Option.some.injEq] at h
        cases r with
        | error e => simp [Except.map] at h
        | ok ps =>
          simp only [Except.map, Except.ok.injEq] at h
          have hnd := decodeLoop_ok_nodup dt data order isBig fuel o ps hw
          obtain ⟨hd1, ho1, hb1⟩ :
              t.Dirs = ps.map Prod.snd ∧ t.Order = order ∧ t.IsBig = isBig := by
            rw [← h]; exact ⟨rfl, rfl, rfl⟩
          rw [ho1, hb1, hd1]
          refine ⟨pos0, pos1, o, ps, rfl, hro, hw, rfl, hnd, ?_⟩
          simp [List.toFinset_card_of_nodup hnd]

/-- Witness for C2: the successful decode of the minimal TIFF admits the
walk decomposition with distinct visited offsets. -/
theorem decode_dirs_distinct_offsets_witness :
    ∃ (pos0 pos1 : Nat) (o : Int) (ps : List (Int × Dir)),
      decodeHeader minimalBytes =
          .ok ((Tiff.mk [⟨[]⟩] .littleEndian false).Order,
            (Tiff.mk [⟨[]⟩] .littleEndian false).IsBig, pos0) ∧
      readOffset minimalBytes pos0 (Tiff.mk [⟨[]⟩] .littleEndian false).Order
          (Tiff.mk [⟨[]⟩] .littleEndian false).IsBig = .ok (o, pos1) ∧
      decodeLoop DecodeTag minimalBytes
          (Tiff.mk [⟨[]⟩] .littleEndian false).Order
          (Tiff.mk [⟨[]⟩] .littleEndian false).IsBig 1 o o =
          some (.ok ps) ∧
      (Tiff.mk [⟨[]⟩] .littleEndian false).Dirs = ps.map Prod.snd ∧
      (ps.map Prod.fst).Nodup ∧
      (Tiff.mk [⟨[]⟩] .littleEndian false).Dirs.length =
        (ps.map Prod.fst).toFinset.card :=
  decode_dirs_distinct_offsets DecodeTag minimalBytes 1
    ⟨[⟨[]⟩], .littleEndian, false⟩ rfl

/-- One iteration of the IFD-chain loop viewed as a transition on the
current offset (with `prev` equal to that offset, the invariant `Decode`
maintains at every loop head): `some next` when the loop continues to
offset `next`, `none` when the loop stops at this offset (end of chain,
seek failure, directory failure or the self-loop guard). -/
def stepNext (dt : TagDecoder) (data : List Byte) (order : ByteOrder)
    (isBig : Bool) (o : Int) : Option Int :=
  if o = 0 then none else
  match seek o with
  | .error _ => none
  | .ok pos =>
    match DecodeDir dt data order isBig pos with
    | .error _ => none
    | .ok (_, next, _) => if next = o then none else some next

/-- The chain of IFD offsets the loop visits, starting at `o`: the offset
after `k` continuing iterations, `none` once the loop has stopped. -/
def chainFrom (dt : TagDecoder) (data : List Byte) (order : ByteOrder)
    (isBig : Bool) (o : Int) : Nat → Option Int
  | 0 => some o
  | k + 1 =>
    (chainFrom dt data order isBig o k).bind (stepNext dt data order isBig)

theorem stepNext_some_inv (dt : TagDecoder) (data : List Byte)
    (order : ByteOrder) (isBig : Bool) (x y : Int)
    (h : stepNext dt data order isBig x = some y) :
    x ≠ 0 ∧ ∃ pos d p2, seek x = .ok pos ∧
      DecodeDir dt data order isBig pos = .ok (d, y, p2) ∧ y ≠ x := by
  unfold stepNext at h
  by_cases hx : x = 0
  · simp [hx] at h
  · rw [if_neg hx] at h
    refine ⟨hx, ?_⟩
    cases hs : seek x with
    | error e => rw [hs] at h; simp at h
    | ok pos =>
      rw [hs] at h
      dsimp only at h
      cases hd : DecodeDir dt data order isBig pos with
      | error e => rw [hd] at h; simp at h
      | ok v =>
        obtain ⟨d, next, p2⟩ := v
        rw [hd] at h
        dsimp only at h
        by_cases hn : next = x
        · simp [hn] at h
        · simp only [hn, if_false, Option.some.injEq] at h
          subst h
          exact ⟨pos, d, p2, rfl, hd, hn⟩

theorem decodeLoop_stops (dt : TagDecoder) (data : List Byte)
    (order : ByteOrder) (isBig : Bool) (x : Int)
    (h : stepNext dt data order isBig x = none) :
    ∃ r, decodeLoop dt data order isBig 1 x x = some r := by
  unfold stepNext at h
  by_cases hx : x = 0
  · exact ⟨.ok [], by subst hx; exact decodeLoop_zero_offset dt data order isBig 1 0⟩
  · rw [if_neg hx] at h
    cases hs : seek x with
    | error e =>
      exact ⟨.error ⟨"seek to IFD failed", some e⟩,
        by rw [decodeLoop_succ, if_neg hx, hs]⟩
    | ok pos =>
      rw [hs] at h
      dsimp only at h
      cases hd : DecodeDir dt data order isBig pos with
      | error e =>
        by_cases he : e.Err = some IOErr.eof
        · refine ⟨.ok [], ?_⟩
          rw [decodeLoop_succ, if_neg hx, hs]
          dsimp only
          rw [hd]
          simp [he]
        · refine ⟨.error e, ?_⟩
          rw [decodeLoop_succ, if_neg hx, hs]
          dsimp only
          rw [hd]
          simp [he]
      | ok v =>
        obtain ⟨d, next, p2⟩ := v
        rw [hd] at h
        dsimp only at h
        by_cases hn : next = x
        · refine ⟨.error ⟨"recursive IFD", none⟩, ?_⟩
          rw [decodeLoop_succ, if_neg hx, hs]
          dsimp only
          rw [hd]
          simp [hn]
        · simp [hn] at h

theorem chainFrom_terminates (dt : TagDecoder) (data : List Byte)
    (order : ByteOrder) (isBig : Bool) (o : Int) :
    ∀ (k : Nat) (x : Int), chainFrom dt data order isBig o k = some x →
    (∃ f r, decodeLoop dt data order isBig f x x = some r) →
    ∃ f r, decodeLoop dt data order isBig f o o = some r := by
  intro k
  induction k with
  | zero =>
    intro x hx hterm
    rw [show chainFrom dt data order isBig o 0 = some o from rfl] at hx
    simp only [Option.some.injEq] at hx
    rw [← hx] at hterm
    exact hterm
  | succ k ih =>
    intro x hx hterm
    cases hw : chainFrom dt data order isBig o k with
    | none => rw [chainFrom, hw] at hx; simp at hx
    | some w =>
      have hstep : stepNext dt data order isBig w = some x := by
        rw [chainFrom, hw] at hx; simpa using hx
      apply ih w hw
      obtain ⟨hx0, pos, d, p2, hseek, hdir, hne⟩ :=
        stepNext_some_inv dt data order isBig w x hstep
      obtain ⟨f, r, hf⟩ := hterm
      refine ⟨f + 1, (some r).map (fun s =>
        s.map (fun ps => (w, d) :: ps)) |>.getD (.ok []), ?_⟩
      rw [decodeLoop_succ, if_neg hx0, hseek]
      dsimp only
      rw [hdir]
      dsimp only
      rw [if_neg hne, hf]
      rfl

theorem chainFrom_none_terminates (dt : TagDecoder) (data : List Byte)
    (order : ByteOrder) (isBig : Bool) (o : Int) :
    ∀ m : Nat, chainFrom dt data order isBig o m = none →
    ∃ f r, decodeLoop dt data order isBig f o o = some r := by
  intro m
  induction m with
  | zero => intro h; simp [chainFrom] at h
  | succ m ih =>
    intro h
    cases hw : chainFrom dt data order isBig o m with
    | none => exact ih hw
    | some w =>
      have hstep : stepNext dt data order isBig w = none := by
        rw [chainFrom, hw] at h; simpa using h
      obtain ⟨r, hr⟩ := decodeLoop_stops dt data order isBig w hstep
      exact chainFrom_terminates dt data order isBig o m w hw ⟨1, r, hr⟩

theorem stepNext_some_bounds (dt : TagDecoder) (data : List Byte)
    (order : ByteOrder) (isBig : Bool) (x y : Int)
    (h : stepNext dt data order isBig x = some y) :
    1 ≤ x ∧ x < (data.length : Int) := by
  obtain ⟨hx0, pos, d, p2, hseek, hdir, hne⟩ :=
    stepNext_some_inv dt data order isBig x y h
  have hx : ¬x < 0 ∧ pos = x.toNat := by
    unfold seek at hseek
    by_cases h0 : x < 0
    · rw [if_pos h0] at hseek; exact absurd hseek (by simp)
    · rw [if_neg h0] at hseek
      simp only [Except.ok.injEq] at hseek
      exact ⟨h0, hseek.symm⟩
  have hlt : pos < data.length := by
    by_contra hge
    rw [decodeDir_eof_of_past_end dt data order isBig pos
      (le_of_not_lt hge)] at hdir
    exact absurd hdir (by simp)
  obtain ⟨h0, hp⟩ := hx
  rw [hp] at hlt
  omega

theorem decodeLoop_terminates_of_chain_inj (dt : TagDecoder) (data : List Byte)
    (order : ByteOrder) (isBig : Bool) (o : Int)
    (hinj : ∀ i j x, chainFrom dt data order isBig o i = some x →
      chainFrom dt data order isBig o j = some x → i = j) :
    ∃ f r, decodeLoop dt data order isBig f o o = some r := by
  by_cases hnone : ∃ m, chainFrom dt data order isBig o m = none
  · obtain ⟨m, hm⟩ := hnone
    exact chainFrom_none_terminates dt data order isBig o m hm
  · exfalso
    push_neg at hnone
    have hdef : ∀ m, ∃ v, chainFrom dt data order isBig o m = some v := by
      intro m
      cases hv : chainFrom dt data order isBig o m with
      | none => exact absurd hv (hnone m)
      | some v => exact ⟨v, rfl⟩
    have hg : ∀ m, chainFrom dt data order isBig o (m + 1) =
        some ((chainFrom dt data order isBig o (m + 1)).getD 0) := by
      intro m
      obtain ⟨v, hv⟩ := hdef (m + 1)
      rw [hv]
      rfl
    have hbound : ∀ m, 1 ≤ (chainFrom dt data order isBig o (m + 1)).getD 0 ∧
        (chainFrom dt data order isBig o (m + 1)).getD 0 < (data.length : Int) := by
      intro m
      obtain ⟨v, hv⟩ := hdef (m + 1)
      obtain ⟨w, hw⟩ := hdef (m + 2)
      have hstep : stepNext dt data order isBig v = some w := by
        rw [show m + 2 = m + 1 + 1 from rfl, chainFrom, hv] at hw
        simpa using hw
      have hb := stepNext_some_bounds dt data order isBig v w hstep
      rw [hv]
      simpa using hb
    have hcard := Finset.card_le_card_of_injOn
      (fun m => (chainFrom dt data order isBig o (m + 1)).getD 0)
      (s := Finset.range (data.length + 1))
      (t := Finset.Ico (1 : Int) (data.length : Int))
      (fun m _ => by
        rw [Finset.mem_Ico]
        exact hbound m)
      (fun a _ b _ hab => by
        have hab2 : (chainFrom dt data order isBig o (a + 1)).getD 0 =
            (chainFrom dt data order isBig o (b + 1)).getD 0 := hab
        have ha2 := hg a
        rw [hab2] at ha2
        have := hinj (a + 1) (b + 1) _ ha2 (hg b)
        omega)
    rw [Finset.card_range, Int.card_Ico] at hcard
    omega

/-- C1 (amended): `Decode` terminates on every input whose IFD chain never
revisits an offset (in particular whenever the walk ends via the cycle
guard, the EOF-skip or a zero next-offset); an input whose chain revisits an
offset — a cycle of length at least two, which the single-step `prev` guard
does not catch — makes the loop run forever. -/
theorem decode_terminates_of_no_revisit (dt : TagDecoder) (data : List Byte)
    (hinj : ∀ (order : ByteOrder) (isBig : Bool) (pos0 pos1 : Nat) (o : Int),
      decodeHeader data = .ok (order, isBig, pos0) →
      readOffset data pos0 order isBig = .ok (o, pos1) →
      ∀ i j x, chainFrom dt data order isBig o i = some x →
        chainFrom dt data order isBig o j = some x → i = j) :
    ∃ fuel r, decodeFuel dt fuel data = some r := by
  cases hh : decodeHeader data with
  | error e => exact ⟨0, .error e, by simp [decodeFuel, hh]⟩
  | ok v =>
    obtain ⟨order, isBig, pos0⟩ := v
    cases hro : readOffset data pos0 order isBig with
    | error e =>
      exact ⟨0, .error ⟨"could not read offset to first IFD", some e⟩,
        by simp [decodeFuel, hh, hro]⟩
    | ok w =>
      obtain ⟨o, pos1⟩ := w
      obtain ⟨f, r, hf⟩ := decodeLoop_terminates_of_chain_inj dt data order
        isBig o (hinj order isBig pos0 pos1 o hh hro)
      exact ⟨f, r.map (fun ps => ⟨ps.map Prod.snd, order, isBig⟩),
        by simp [decodeFuel, hh, hro, hf]⟩

theorem decodeLoop_cycle_diverges :
    ∀ fuel,
      decodeLoop DecodeTag cycleBytes .littleEndian false fuel 8 8 = none ∧
      decodeLoop DecodeTag cycleBytes .littleEndian false fuel 14 14 = none := by
  intro fuel
  induction fuel with
  | zero => exact ⟨rfl, rfl⟩
  | succ f ih =>
    constructor
    · rw [show decodeLoop DecodeTag cycleBytes .littleEndian false (f + 1) 8 8 =
          (decodeLoop DecodeTag cycleBytes .littleEndian false f 14 14).map
            (fun r => r.map (fun ps => ((8 : Int), (⟨[]⟩ : Dir)) :: ps))
          from rfl]
      rw [ih.2]
      rfl
    · rw [show decodeLoop DecodeTag cycleBytes .littleEndian false (f + 1) 14 14 =
          (decodeLoop DecodeTag cycleBytes .littleEndian false f 8 8).map
            (fun r => r.map (fun ps => ((14 : Int), (⟨[]⟩ : Dir)) :: ps))
          from rfl]
      rw [ih.1]
      rfl

/-- Counterexample to C1 as stated: on the concrete input whose two IFDs
point at each other (offset 8 → 14 → 8 → …), `Decode` never terminates —
the single-step `prev` guard does not catch the two-step cycle, so the
IFD-chain loop runs forever (no amount of fuel yields a result). -/
theorem decode_cycle_diverges :
    ¬ ∃ fuel r, Decode fuel cycleBytes = some r := by
  rintro ⟨fuel, r, hr⟩
  have h := (decodeLoop_cycle_diverges fuel).1
  rw [show Decode fuel cycleBytes =
      (decodeLoop DecodeTag cycleBytes .littleEndian false fuel 8 8).map
        (fun s => s.map
          (fun ps => (⟨ps.map Prod.snd, .littleEndian, false⟩ : Tiff)))
      from rfl] at hr
  rw [h] at hr
  simp at hr

theorem minimal_chain_two_none :
    ∀ k, chainFrom DecodeTag minimalBytes .littleEndian false 8 (k + 2) = none := by
  intro k
  induction k with
  | zero => rfl
  | succ k ih =>
    rw [show k + 1 + 2 = k + 2 + 1 from rfl, chainFrom, ih]
    rfl

theorem minimal_chain_inj :
    ∀ i j x, chainFrom DecodeTag minimalBytes .littleEndian false 8 i = some x →
      chainFrom DecodeTag minimalBytes .littleEndian false 8 j = some x →
      i = j := by
  have hval : ∀ i x,
      chainFrom DecodeTag minimalBytes .littleEndian false 8 i = some x →
      (i = 0 ∧ x = 8) ∨ (i = 1 ∧ x = 0) := by
    intro i x h
    match i with
    | 0 =>
      left
      refine ⟨rfl, ?_⟩
      rw [show chainFrom DecodeTag minimalBytes .littleEndian false 8 0 =
          some 8 from rfl] at h
      simpa using h.symm
    | 1 =>
      right
      refine ⟨rfl, ?_⟩
      rw [show chainFrom DecodeTag minimalBytes .littleEndian false 8 1 =
          some 0 from rfl] at h
      simpa using h.symm
    | i + 2 =>
      rw [minimal_chain_two_none i] at h
      exact absurd h (by simp)
  intro i j x hi hj
  rcases hval i x hi with ⟨hi0, hx⟩ | ⟨hi1, hx⟩ <;>
    rcases hval j x hj with ⟨hj0, hx2⟩ | ⟨hj1, hx2⟩ <;> omega

/-- Witness for the amended C1: the minimal TIFF's chain (8, then 0, then
stopped) never revisits an offset, and the decode indeed terminates. -/
theorem decode_terminates_of_no_revisit_witness :
    ∃ fuel r, decodeFuel DecodeTag fuel minimalBytes = some r :=
  decode_terminates_of_no_revisit DecodeTag minimalBytes (by
    intro order isBig pos0 pos1 o hh hro
    rw [show decodeHeader minimalBytes =
        .ok (.littleEndian, false, 4) from rfl] at hh
    simp only [Except.ok.injEq, Prod.mk.injEq] at hh
    obtain ⟨h1, h2, h3⟩ := hh
    subst h1
    subst h2
    subst h3
    rw [show readOffset minimalBytes 4 .littleEndian false =
        .ok (8, 8) from rfl] at hro
    simp only [Except.ok.injEq, Prod.mk.injEq] at hro
    obtain ⟨h4, h5⟩ := hro
    subst h4
    exact minimal_chain_inj)

end Goexif
